import Mathlib

/-!
Verification of the `shutdown` Go package: a shallow embedding of its three
closing strategies (Fifo, Lifo, Group), the multierr error aggregation they
use, the context attach/lookup pair, and the package-level once-guarded
close, together with theorems settling the specification claims.

Modelling conventions:
* A Go `error` value is modelled by its message, `Err := String`; a nil
  error aggregate is the empty list of constituents.
* `multierr.Append`/`Combine` build a flattened list of non-nil constituent
  errors, so an aggregate is `List Err` with `[]` standing for nil.
* A Go `context.Context` plays two roles.  Its cancellation aspect is
  modelled by `CancelCtx`: `fires = some k` means the select statement
  performed at step `k` of a walk observes `ctx.Done()` before the unit of
  work finishes (all earlier selects observe completion first);
  `fires = none` is a context that is never cancelled.  `err` is the value
  `ctx.Err()` returns once done.  Its value-carrying aspect is modelled by
  `Context`, a chain of key/value associations, most recent first.
* A `Closer` is modelled by the outcome its `Close()` method returns.
  Strategy results record both the aggregate (`errs`) and the trace of
  entry indices whose `Close` was dispatched, in dispatch order
  (`dispatched`), so that ordering and exactly-once claims are statable.
-/

namespace Shutdown

/-- An error message; the payload of a Go `error`. -/
abbrev Err := String

/-- A registered closeable resource, modelled by the outcome its `Close`
method returns: `none` for success, `some e` for failure with message `e`. -/
structure Closer where
  res : Option Err
  deriving DecidableEq

/-- The cancellation aspect of a Go context: at which select step (if any)
`ctx.Done()` wins the race, and the terminal error `ctx.Err()` carries. -/
structure CancelCtx where
  fires : Option Nat
  err : Err
  deriving DecidableEq

/-- Result of a strategy close call: the constituent errors of the returned
aggregate (empty list = nil error) and the indices, into the registration
list, of entries whose close operation was dispatched, in dispatch order. -/
structure CloseResult where
  errs : List Err
  dispatched : List Nat
  deriving DecidableEq

/-- Go source `callClose`: run the closer and, when it fails, append the
failure to the accumulated aggregate (`multierr.Append`). -/
def callClose (c : Closer) (errs : List Err) : List Err :=
  match c.res with
  | none => errs
  | some e => errs ++ [e]

/-- The shared loop body of `Fifo.CloseContext` and `Lifo.CloseContext`:
walk the (index, closer) entries in order; for each entry dispatch its close
attempt, then select between the context firing (return the aggregate so far
with `ctx.Err()` appended, `multierr.Append(errs, ctx.Err())`) and the
attempt completing (accumulate via `callClose` and continue).  `step` counts
the selects performed so far. -/
def walkClose (ctx : CancelCtx) : List (Nat × Closer) → Nat → List Err → List Nat → CloseResult
  | [], _, errs, trace => ⟨errs, trace⟩
  | (i, c) :: rest, step, errs, trace =>
    if ctx.fires = some step then
      ⟨errs ++ [ctx.err], trace ++ [i]⟩
    else
      walkClose ctx rest (step + 1) (callClose c errs) (trace ++ [i])

/-- The Fifo strategy: a queue of closers in registration order. -/
structure Fifo where
  queue : List Closer
  deriving DecidableEq

/-- Go `Fifo.Append`: add a closer at the end of the queue. -/
def Fifo.Append (f : Fifo) (c : Closer) : Fifo :=
  ⟨f.queue ++ [c]⟩

/-- Go `Fifo.CloseContext`: walk the queue front to back, racing each close
attempt against the context. -/
def Fifo.CloseContext (f : Fifo) (ctx : CancelCtx) : CloseResult :=
  walkClose ctx f.queue.enum 0 [] []

/-- Go `Fifo.Close`: `CloseContext` with a background context that never
fires. -/
def Fifo.Close (f : Fifo) : CloseResult :=
  f.CloseContext ⟨none, ""⟩

/-- The Lifo strategy: a stack of closers in registration order. -/
structure Lifo where
  stack : List Closer
  deriving DecidableEq

/-- Go `Lifo.Append`: push a closer onto the stack. -/
def Lifo.Append (l : Lifo) (c : Closer) : Lifo :=
  ⟨l.stack ++ [c]⟩

/-- Go `Lifo.CloseContext`: walk the stack back to front (`for i := len-1;
i >= 0; i--`), racing each close attempt against the context. -/
def Lifo.CloseContext (l : Lifo) (ctx : CancelCtx) : CloseResult :=
  walkClose ctx l.stack.enum.reverse 0 [] []

/-- Go `Lifo.Close`: `CloseContext` with a background context. -/
def Lifo.Close (l : Lifo) : CloseResult :=
  l.CloseContext ⟨none, ""⟩

/-- The Group strategy: a list of closers, all closed concurrently. -/
structure Group where
  closers : List Closer
  deriving DecidableEq

/-- Go `Group.Append`: add a closer to the group. -/
def Group.Append (g : Group) (c : Closer) : Group :=
  ⟨g.closers ++ [c]⟩

/-- Whether unit `i` of a group close records its failure into the shared
error slice before the aggregate is read.  When the context never fires,
each per-unit select waits on the unit's `done` channel, which closes only
after the error is recorded, so every failure is recorded; when the context
fires, a unit whose wait leg resolved via `ctx.Done()` may or may not have
recorded its failure by then, which the oracle `recorded` resolves. -/
def unitRecorded (ctx : CancelCtx) (recorded : Nat → Bool) (i : Nat) : Bool :=
  match ctx.fires with
  | none => true
  | some _ => recorded i

/-- Go `Group.CloseContext`: dispatch one unit of work per registered closer
(all of them, unconditionally), wait for every unit's wait leg to resolve
(`wg.Wait`), and return `multierr.Combine` of the failures recorded in the
shared slice.  `ctx.Err()` is never appended. -/
def Group.CloseContext (g : Group) (ctx : CancelCtx) (recorded : Nat → Bool) : CloseResult :=
  ⟨g.closers.enum.foldl
      (fun errs ic =>
        match ic.2.res with
        | some e => if unitRecorded ctx recorded ic.1 then errs ++ [e] else errs
        | none => errs) [],
    g.closers.enum.map Prod.fst⟩

/-- Go `Group.Close`: `CloseContext` with a background context; every
failure is recorded. -/
def Group.Close (g : Group) : CloseResult :=
  g.CloseContext ⟨none, ""⟩ (fun _ => true)

/-- The failures of a list of closers, in list order (the aggregate a
sequential uncancelled walk over that list accumulates). -/
def failures (cs : List Closer) : List Err :=
  cs.filterMap Closer.res

/-- The textual form of an aggregate error.  Modelled from the spec:
the multierr composite (an external dependency, `go.uber.org/multierr`) is
"textually concatenable so that a consumer inspecting the composite's
message sees every constituent failure's message substring"; we render the
constituents joined by a separator. -/
def errorText : List Err → String
  | [] => ""
  | [e] => e
  | e :: rest => e ++ "; " ++ errorText rest

/-- `msg` occurs as a contiguous substring of `text`. -/
def containsMsg (text msg : String) : Prop :=
  ∃ s t, text.data = s ++ msg.data ++ t

/-- A key under which a value can be stored in a Go context chain.
`closureKey` is the package's private `ctxKey{}` type; `other n` stands for
any key owned by other code. -/
inductive CtxKey where
  | closureKey
  | other (n : Nat)
  deriving DecidableEq

/-- A strategy instance as stored in a context, identified by the pointer
identity of the instance. -/
structure Closure where
  id : Nat
  deriving DecidableEq

/-- A value stored in a Go context chain: either a `Closure` (stored by this
package under `closureKey`) or anything else stored by other code. -/
inductive CtxVal where
  | closure (c : Closure)
  | other (n : Nat)
  deriving DecidableEq

/-- The value-carrying aspect of a Go context: the chain of key/value
associations added by `context.WithValue`, most recent first.  `ctx.Value`
walks the chain from the newest association to the root. -/
structure Context where
  assoc : List (CtxKey × CtxVal)
  deriving DecidableEq

/-- First association for `key` along the chain, newest first; `none` when
no ancestor carries one (Go: `ctx.Value(key) == nil`). -/
def lookupKey : List (CtxKey × CtxVal) → CtxKey → Option CtxVal
  | [], _ => none
  | (k, v) :: rest, key => if k = key then some v else lookupKey rest key

/-- Go `ClosureToContext`: `context.WithValue(ctx, ctxKey{}, closure)` —
returns a new derived context with the association added on top. -/
def ClosureToContext (ctx : Context) (closure : Closure) : Context :=
  ⟨(CtxKey.closureKey, CtxVal.closure closure) :: ctx.assoc⟩

/-- Go `ClosureFromContext`: `ctx.Value(ctxKey{}).(Closure)` — the stored
closure with `ok = true`, or `(nil, false)` when no association exists. -/
def ClosureFromContext (ctx : Context) : Option Closure × Bool :=
  match lookupKey ctx.assoc CtxKey.closureKey with
  | some (CtxVal.closure c) => (some c, true)
  | _ => (none, false)

/-- Deriving a descendant context from `ctx`: any sequence of further
`context.WithValue` (or cancellation) wrappings, each adding associations on
top of the chain. -/
def Context.derive (ctx : Context) (entries : List (CtxKey × CtxVal)) : Context :=
  ⟨entries ++ ctx.assoc⟩

/-- The package-level default registry state: the global `pkgClosure`
(default strategy: `&Lifo{}`) and the `sync.Once` guard, `once = true` once
it has fired. -/
structure PkgState where
  pkgClosure : Lifo
  once : Bool
  deriving DecidableEq

/-- Go package-level `Append`: append to the global closure under `mu`. -/
def Append (s : PkgState) (c : Closer) : PkgState :=
  { s with pkgClosure := s.pkgClosure.Append c }

/-- Go package-level `CloseContext`: under `mu`, `once.Do` runs the
underlying strategy's `CloseContext` only if the guard has not fired yet and
flips the guard; otherwise `err` keeps its zero value `nil` and nothing is
dispatched. -/
def CloseContext (s : PkgState) (ctx : CancelCtx) : PkgState × CloseResult :=
  if s.once then (s, ⟨[], []⟩)
  else ({ s with once := true }, s.pkgClosure.CloseContext ctx)

/-- Go package-level `Close`: `CloseContext(context.Background())`. -/
def Close (s : PkgState) : PkgState × CloseResult :=
  CloseContext s ⟨none, ""⟩

/-- A sequence of package-level close calls, threaded through the registry
state; returns the final state and each call's returned result in order. -/
def runCalls (s : PkgState) : List CancelCtx → PkgState × List CloseResult
  | [] => (s, [])
  | ctx :: rest =>
    let p := CloseContext s ctx
    let q := runCalls p.1 rest
    (q.1, p.2 :: q.2)

/-! ### Helper lemmas about the walk and the aggregation -/

theorem callClose_eq (c : Closer) (errs : List Err) :
    callClose c errs = errs ++ c.res.toList := by
  cases h : c.res <;> simp [callClose, h]

theorem failures_cons (c : Closer) (cs : List Closer) :
    failures (c :: cs) = c.res.toList ++ failures cs := by
  cases h : c.res <;> simp [failures, List.filterMap_cons, h]

theorem walkClose_none (ctx : CancelCtx) (h : ctx.fires = none) :
    ∀ (entries : List (Nat × Closer)) (step : Nat) (errs : List Err) (trace : List Nat),
      walkClose ctx entries step errs trace =
        ⟨errs ++ failures (entries.map Prod.snd), trace ++ entries.map Prod.fst⟩ := by
  intro entries
  induction entries with
  | nil => intro step errs trace; simp [walkClose, failures]
  | cons p rest ih =>
    intro step errs trace
    obtain ⟨i, c⟩ := p
    rw [walkClose, if_neg (by simp [h]), ih]
    simp [callClose_eq, failures_cons]

theorem walkClose_fire (ctx : CancelCtx) :
    ∀ (entries : List (Nat × Closer)) (j step : Nat) (errs : List Err) (trace : List Nat),
      ctx.fires = some (step + j) → j < entries.length →
      walkClose ctx entries step errs trace =
        ⟨errs ++ failures ((entries.take j).map Prod.snd) ++ [ctx.err],
          trace ++ (entries.take (j + 1)).map Prod.fst⟩ := by
  intro entries
  induction entries with
  | nil => intro j step errs trace _ hj; simp at hj
  | cons p rest ih =>
    intro j step errs trace hf hj
    obtain ⟨i, c⟩ := p
    cases j with
    | zero =>
      rw [walkClose, if_pos (by simpa using hf)]
      simp [failures]
    | succ m =>
      have hne : ¬ ctx.fires = some step := by
        rw [hf]; simp only [Option.some.injEq]; omega
      have hf' : ctx.fires = some (step + 1 + m) := by
        rw [hf]; congr 1; omega
      have hj' : m < rest.length := by
        simp at hj; omega
      rw [walkClose, if_neg hne, ih m (step + 1) (callClose c errs) (trace ++ [i]) hf' hj']
      simp [callClose_eq, failures_cons]

theorem fifo_closeContext_none (cs : List Closer) (e : Err) :
    Fifo.CloseContext ⟨cs⟩ ⟨none, e⟩ = ⟨failures cs, List.range cs.length⟩ := by
  rw [Fifo.CloseContext, walkClose_none _ rfl]
  simp [List.enum_map_snd, List.enum_map_fst]

theorem fifo_closeContext_fire (cs : List Closer) (ctx : CancelCtx) (k : Nat)
    (hf : ctx.fires = some k) (hk : k < cs.length) :
    Fifo.CloseContext ⟨cs⟩ ctx = ⟨failures (cs.take k) ++ [ctx.err], List.range (k + 1)⟩ := by
  rw [Fifo.CloseContext,
    walkClose_fire ctx cs.enum k 0 [] [] (by simpa using hf) (by simpa using hk)]
  congr 1
  · rw [List.map_take, List.enum_map_snd]
    simp
  · rw [List.map_take, List.enum_map_fst, List.take_range]
    simp [Nat.min_eq_left (Nat.succ_le_of_lt hk)]

theorem lifo_closeContext_none (cs : List Closer) (e : Err) :
    Lifo.CloseContext ⟨cs⟩ ⟨none, e⟩ =
      ⟨failures cs.reverse, (List.range cs.length).reverse⟩ := by
  rw [Lifo.CloseContext, walkClose_none _ rfl]
  simp [List.map_reverse, List.enum_map_snd, List.enum_map_fst]

theorem lifo_closeContext_fire (cs : List Closer) (ctx : CancelCtx) (k : Nat)
    (hf : ctx.fires = some k) (hk : k < cs.length) :
    Lifo.CloseContext ⟨cs⟩ ctx =
      ⟨failures (cs.reverse.take k) ++ [ctx.err],
        ((List.range cs.length).reverse).take (k + 1)⟩ := by
  rw [Lifo.CloseContext,
    walkClose_fire ctx cs.enum.reverse k 0 [] [] (by simpa using hf) (by simpa using hk)]
  congr 1
  · rw [List.map_take, List.map_reverse, List.enum_map_snd]
    simp
  · rw [List.map_take, List.map_reverse, List.enum_map_fst]
    simp

theorem group_fold_eq (ctx : CancelCtx) (recorded : Nat → Bool) :
    ∀ (l : List (Nat × Closer)) (errs : List Err),
      l.foldl
        (fun errs ic =>
          match ic.2.res with
          | some e => if unitRecorded ctx recorded ic.1 then errs ++ [e] else errs
          | none => errs) errs
      = errs ++ l.filterMap
          (fun ic => if unitRecorded ctx recorded ic.1 then ic.2.res else none) := by
  intro l
  induction l with
  | nil => intro errs; simp
  | cons p rest ih =>
    intro errs
    obtain ⟨i, c⟩ := p
    cases hres : c.res with
    | none => simp [List.foldl_cons, List.filterMap_cons, hres, ih]
    | some e =>
      cases hrec : unitRecorded ctx recorded i <;>
        simp [List.foldl_cons, List.filterMap_cons, hres, hrec, ih]

theorem filterMap_snd_res :
    ∀ l : List (Nat × Closer),
      l.filterMap (fun ic => ic.2.res) = failures (l.map Prod.snd) := by
  intro l
  induction l with
  | nil => simp [failures]
  | cons p rest ih =>
    cases hres : p.2.res <;> simp [List.filterMap_cons, failures_cons, hres, ih]

theorem group_closeContext_none (cs : List Closer) (e : Err) (recorded : Nat → Bool) :
    Group.CloseContext ⟨cs⟩ ⟨none, e⟩ recorded = ⟨failures cs, List.range cs.length⟩ := by
  rw [Group.CloseContext]
  congr 1
  · rw [group_fold_eq]
    simp only [unitRecorded, List.nil_append, if_true]
    rw [filterMap_snd_res, List.enum_map_snd]
  · rw [List.enum_map_fst]

theorem group_closeContext_fire (cs : List Closer) (ctx : CancelCtx) (k : Nat)
    (recorded : Nat → Bool) (hf : ctx.fires = some k) :
    Group.CloseContext ⟨cs⟩ ctx recorded =
      ⟨cs.enum.filterMap (fun ic => if recorded ic.1 then ic.2.res else none),
        List.range cs.length⟩ := by
  rw [Group.CloseContext]
  congr 1
  · rw [group_fold_eq]
    simp only [unitRecorded, hf, List.nil_append]
  · rw [List.enum_map_fst]

theorem mem_errorText :
    ∀ (msgs : List Err) (m : Err), m ∈ msgs → containsMsg (errorText msgs) m := by
  intro msgs
  induction msgs with
  | nil => intro m hm; simp at hm
  | cons e rest ih =>
    intro m hm
    cases rest with
    | nil =>
      simp at hm
      subst hm
      exact ⟨[], [], by simp [errorText]⟩
    | cons r rs =>
      rcases List.mem_cons.mp hm with h | h
      · subst h
        refine ⟨[], "; ".data ++ (errorText (r :: rs)).data, ?_⟩
        simp [errorText, String.data_append]
      · obtain ⟨s, t, hst⟩ := ih m h
        refine ⟨e.data ++ "; ".data ++ s, t, ?_⟩
        simp [errorText, String.data_append, hst]

theorem lookupKey_append_of_no_key (key : CtxKey) :
    ∀ (es rest : List (CtxKey × CtxVal)), (∀ p ∈ es, p.1 ≠ key) →
      lookupKey (es ++ rest) key = lookupKey rest key := by
  intro es
  induction es with
  | nil => intro rest _; simp
  | cons p tail ih =>
    intro rest hno
    obtain ⟨k, v⟩ := p
    have hk : k ≠ key := hno (k, v) (List.mem_cons_self _ _)
    rw [List.cons_append, lookupKey, if_neg hk, ih rest]
    intro q hq
    exact hno q (List.mem_cons_of_mem _ hq)

theorem lookupKey_none_of_no_key (key : CtxKey) (l : List (CtxKey × CtxVal))
    (hno : ∀ p ∈ l, p.1 ≠ key) : lookupKey l key = none := by
  have h := lookupKey_append_of_no_key key l [] hno
  simpa using h

theorem closeContext_of_fired (s : PkgState) (ctx : CancelCtx) (h : s.once = true) :
    CloseContext s ctx = (s, ⟨[], []⟩) := by
  simp [CloseContext, h]

theorem runCalls_of_fired (s : PkgState) (h : s.once = true) :
    ∀ ctxs : List CancelCtx, runCalls s ctxs = (s, ctxs.map fun _ => ⟨[], []⟩) := by
  intro ctxs
  induction ctxs with
  | nil => simp [runCalls]
  | cons ctx rest ih =>
    simp only [runCalls, closeContext_of_fired s ctx h, ih, List.map_cons]

theorem flatten_map_const_nil {α β : Type} (l : List α) :
    (l.map (fun _ => ([] : List β))).flatten = [] := by
  induction l <;> simp [*]

/-! ### Claim theorems -/

/-- C3: for a Queue (Fifo) strategy under a never-firing signal, every
entry's close is issued exactly once and in registration order: the dispatch
trace is exactly `[0, 1, …, n-1]` whatever the entries' outcomes (so a
failing entry never prevents the remaining entries from being attempted),
and each index is dispatched exactly once. -/
theorem C3_fifo_order_exactly_once (cs : List Closer) (e : Err) :
    Fifo.CloseContext ⟨cs⟩ ⟨none, e⟩ = ⟨failures cs, List.range cs.length⟩ ∧
    ∀ i, i < cs.length →
      ((Fifo.CloseContext ⟨cs⟩ ⟨none, e⟩).dispatched).count i = 1 := by
  refine ⟨fifo_closeContext_none cs e, ?_⟩
  intro i hi
  rw [fifo_closeContext_none cs e]
  exact List.count_eq_one_of_mem (List.nodup_range _) (List.mem_range.mpr hi)

/-- Witness for C3 at a concrete queue with a failing middle-free mix. -/
theorem C3_witness :
    Fifo.CloseContext ⟨[⟨some "a"⟩, ⟨none⟩, ⟨some "b"⟩]⟩ ⟨none, "x"⟩ =
      ⟨["a", "b"], [0, 1, 2]⟩ ∧
    1 < 3 ∧
    ((Fifo.CloseContext ⟨[⟨some "a"⟩, ⟨none⟩, ⟨some "b"⟩]⟩ ⟨none, "x"⟩).dispatched).count 1
      = 1 := by
  have h := C3_fifo_order_exactly_once [⟨some "a"⟩, ⟨none⟩, ⟨some "b"⟩] "x"
  exact ⟨h.1.trans (by decide), by decide, h.2 1 (by decide)⟩

/-- C4: for a Stack (Lifo) strategy under a never-firing signal, every
entry's close is issued exactly once and in reverse registration order: the
dispatch trace is exactly `[n-1, …, 1, 0]`, each index exactly once. -/
theorem C4_lifo_reverse_order_exactly_once (cs : List Closer) (e : Err) :
    Lifo.CloseContext ⟨cs⟩ ⟨none, e⟩ =
      ⟨failures cs.reverse, (List.range cs.length).reverse⟩ ∧
    ∀ i, i < cs.length →
      ((Lifo.CloseContext ⟨cs⟩ ⟨none, e⟩).dispatched).count i = 1 := by
  refine ⟨lifo_closeContext_none cs e, ?_⟩
  intro i hi
  rw [lifo_closeContext_none cs e]
  rw [List.count_reverse]
  exact List.count_eq_one_of_mem (List.nodup_range _) (List.mem_range.mpr hi)

/-- Witness for C4 at a concrete stack. -/
theorem C4_witness :
    Lifo.CloseContext ⟨[⟨some "a"⟩, ⟨none⟩, ⟨some "b"⟩]⟩ ⟨none, "x"⟩ =
      ⟨["b", "a"], [2, 1, 0]⟩ ∧
    0 < 3 ∧
    ((Lifo.CloseContext ⟨[⟨some "a"⟩, ⟨none⟩, ⟨some "b"⟩]⟩ ⟨none, "x"⟩).dispatched).count 0
      = 1 := by
  have h := C4_lifo_reverse_order_exactly_once [⟨some "a"⟩, ⟨none⟩, ⟨some "b"⟩] "x"
  exact ⟨h.1.trans (by decide), by decide, h.2 0 (by decide)⟩

/-- C1: for the Queue and Stack strategies, when the signal fires while the
walk waits on the entry at walk position `k`, the walk stops there: exactly
the first `k + 1` walked entries are dispatched (none after the one being
waited on), and the returned aggregate is the failures observed so far with
the signal's terminal error appended as the last constituent. -/
theorem C1_cancellation_stops_walk (cs : List Closer) (ctx : CancelCtx) (k : Nat)
    (hf : ctx.fires = some k) (hk : k < cs.length) :
    Fifo.CloseContext ⟨cs⟩ ctx =
      ⟨failures (cs.take k) ++ [ctx.err], List.range (k + 1)⟩ ∧
    Lifo.CloseContext ⟨cs⟩ ctx =
      ⟨failures (cs.reverse.take k) ++ [ctx.err],
        ((List.range cs.length).reverse).take (k + 1)⟩ :=
  ⟨fifo_closeContext_fire cs ctx k hf hk, lifo_closeContext_fire cs ctx k hf hk⟩

/-- Witness for C1: signal fires while waiting on the second walked entry. -/
theorem C1_witness :
    (⟨some 1, "ctxerr"⟩ : CancelCtx).fires = some 1 ∧ 1 < 3 ∧
    Fifo.CloseContext ⟨[⟨some "a"⟩, ⟨none⟩, ⟨some "b"⟩]⟩ ⟨some 1, "ctxerr"⟩ =
      ⟨["a", "ctxerr"], [0, 1]⟩ ∧
    Lifo.CloseContext ⟨[⟨some "a"⟩, ⟨none⟩, ⟨some "b"⟩]⟩ ⟨some 1, "ctxerr"⟩ =
      ⟨["b", "ctxerr"], [2, 1]⟩ := by
  have h := C1_cancellation_stops_walk [⟨some "a"⟩, ⟨none⟩, ⟨some "b"⟩]
    ⟨some 1, "ctxerr"⟩ 1 rfl (by decide)
  exact ⟨rfl, by decide, h.1.trans (by decide), h.2.trans (by decide)⟩

/-- C9: with a non-empty registration list and a signal that has already
fired before the call (`fires = some 0`: the very first select observes
`ctx.Done()`), the first walked entry's close is still dispatched — index 0
for Fifo, the most recently appended index for Lifo — because dispatch
precedes the select, and the returned aggregate still carries the signal's
terminal error. -/
theorem C9_prefired_signal_still_dispatches_first (cs : List Closer)
    (ctx : CancelCtx) (hne : cs ≠ []) (hf : ctx.fires = some 0) :
    Fifo.CloseContext ⟨cs⟩ ctx = ⟨[ctx.err], [0]⟩ ∧
    Lifo.CloseContext ⟨cs⟩ ctx = ⟨[ctx.err], [cs.length - 1]⟩ := by
  have hk : 0 < cs.length := List.length_pos.mpr hne
  constructor
  · rw [fifo_closeContext_fire cs ctx 0 hf hk]
    simp [failures, List.range_succ]
  · rw [lifo_closeContext_fire cs ctx 0 hf hk]
    obtain ⟨m, hm⟩ : ∃ m, cs.length = m + 1 := ⟨cs.length - 1, by omega⟩
    rw [hm]
    simp [failures, List.range_succ]

/-- Witness for C9 with two registered closers and a pre-fired signal. -/
theorem C9_witness :
    ([⟨some "a"⟩, ⟨some "b"⟩] : List Closer) ≠ [] ∧
    (⟨some 0, "ctxerr"⟩ : CancelCtx).fires = some 0 ∧
    Fifo.CloseContext ⟨[⟨some "a"⟩, ⟨some "b"⟩]⟩ ⟨some 0, "ctxerr"⟩ =
      ⟨["ctxerr"], [0]⟩ ∧
    Lifo.CloseContext ⟨[⟨some "a"⟩, ⟨some "b"⟩]⟩ ⟨some 0, "ctxerr"⟩ =
      ⟨["ctxerr"], [1]⟩ := by
  have h := C9_prefired_signal_still_dispatches_first [⟨some "a"⟩, ⟨some "b"⟩]
    ⟨some 0, "ctxerr"⟩ (by decide) rfl
  exact ⟨by decide, rfl, h.1, h.2⟩

/-- C5: for every strategy under a never-firing signal, the returned
aggregate is nil exactly when every entry's close succeeded (in particular a
strategy with zero entries returns success with no dispatched units), and
every failing entry's message occurs as a substring of the composite's
textual form. -/
theorem C5_no_cancel_aggregation (cs : List Closer) (e : Err) (recorded : Nat → Bool) :
    ((Fifo.CloseContext ⟨cs⟩ ⟨none, e⟩).errs = [] ↔ ∀ c ∈ cs, c.res = none) ∧
    ((Lifo.CloseContext ⟨cs⟩ ⟨none, e⟩).errs = [] ↔ ∀ c ∈ cs, c.res = none) ∧
    ((Group.CloseContext ⟨cs⟩ ⟨none, e⟩ recorded).errs = [] ↔ ∀ c ∈ cs, c.res = none) ∧
    Fifo.CloseContext ⟨[]⟩ ⟨none, e⟩ = ⟨[], []⟩ ∧
    Lifo.CloseContext ⟨[]⟩ ⟨none, e⟩ = ⟨[], []⟩ ∧
    Group.CloseContext ⟨[]⟩ ⟨none, e⟩ recorded = ⟨[], []⟩ ∧
    (∀ c ∈ cs, ∀ m, c.res = some m →
      containsMsg (errorText (Fifo.CloseContext ⟨cs⟩ ⟨none, e⟩).errs) m ∧
      containsMsg (errorText (Lifo.CloseContext ⟨cs⟩ ⟨none, e⟩).errs) m ∧
      containsMsg (errorText (Group.CloseContext ⟨cs⟩ ⟨none, e⟩ recorded).errs) m) := by
  have hfi : (Fifo.CloseContext ⟨cs⟩ ⟨none, e⟩).errs = failures cs := by
    rw [fifo_closeContext_none]
  have hli : (Lifo.CloseContext ⟨cs⟩ ⟨none, e⟩).errs = failures cs.reverse := by
    rw [lifo_closeContext_none]
  have hgr : (Group.CloseContext ⟨cs⟩ ⟨none, e⟩ recorded).errs = failures cs := by
    rw [group_closeContext_none]
  have hnil : failures cs = [] ↔ ∀ c ∈ cs, c.res = none := by
    simp [failures, List.filterMap_eq_nil_iff]
  have hnilrev : failures cs.reverse = [] ↔ ∀ c ∈ cs, c.res = none := by
    simp [failures, List.filterMap_eq_nil_iff]
  refine ⟨by rw [hfi]; exact hnil, by rw [hli]; exact hnilrev, by rw [hgr]; exact hnil,
    ?_, ?_, ?_, ?_⟩
  · rw [fifo_closeContext_none]; simp [failures]
  · rw [lifo_closeContext_none]; simp [failures]
  · rw [group_closeContext_none]; simp [failures]
  · intro c hc m hm
    have hmem : m ∈ failures cs := List.mem_filterMap.mpr ⟨c, hc, hm⟩
    have hmemrev : m ∈ failures cs.reverse :=
      List.mem_filterMap.mpr ⟨c, List.mem_reverse.mpr hc, hm⟩
    exact ⟨by rw [hfi]; exact mem_errorText _ m hmem,
      by rw [hli]; exact mem_errorText _ m hmemrev,
      by rw [hgr]; exact mem_errorText _ m hmem⟩

/-- Witness for C5: a single failing closer, plus the empty strategy. -/
theorem C5_witness :
    (⟨some "boom"⟩ : Closer) ∈ ([⟨some "boom"⟩] : List Closer) ∧
    (⟨some "boom"⟩ : Closer).res = some "boom" ∧
    containsMsg (errorText (Fifo.CloseContext ⟨[⟨some "boom"⟩]⟩ ⟨none, "x"⟩).errs) "boom" ∧
    Fifo.CloseContext ⟨[]⟩ ⟨none, "x"⟩ = ⟨[], []⟩ := by
  have h := C5_no_cancel_aggregation [⟨some "boom"⟩] "x" (fun _ => true)
  have hc := h.2.2.2.2.2.2 ⟨some "boom"⟩ (List.mem_cons_self _ _) "boom" rfl
  exact ⟨List.mem_cons_self _ _, rfl, hc.1, h.2.2.2.1⟩

/-- C2: for the Group strategy under a fired signal, every unit is still
dispatched and waited on (the dispatch trace is all of `[0, …, n-1]`), the
returned aggregate contains only failures recorded before the wait legs
resolved — each constituent originates from some registered closer whose
unit recorded its failure — and the signal's terminal error is never a
constituent: the result does not depend on the signal's error value at
all. -/
theorem C2_group_cancel_no_ctx_error (cs : List Closer) (ctx : CancelCtx)
    (recorded : Nat → Bool) (k : Nat) (hf : ctx.fires = some k) :
    (Group.CloseContext ⟨cs⟩ ctx recorded).dispatched = List.range cs.length ∧
    (∀ e ∈ (Group.CloseContext ⟨cs⟩ ctx recorded).errs,
      ∃ p ∈ cs.enum, recorded p.1 = true ∧ p.2.res = some e) ∧
    (∀ e', Group.CloseContext ⟨cs⟩ ⟨some k, e'⟩ recorded =
      Group.CloseContext ⟨cs⟩ ctx recorded) := by
  have hG := group_closeContext_fire cs ctx k recorded hf
  refine ⟨by rw [hG], ?_, ?_⟩
  · intro e he
    rw [hG] at he
    obtain ⟨p, hp, hpe⟩ := List.mem_filterMap.mp he
    refine ⟨p, hp, ?_⟩
    by_cases hr : recorded p.1 = true
    · rw [if_pos hr] at hpe
      exact ⟨hr, hpe⟩
    · rw [if_neg hr] at hpe
      exact absurd hpe (by simp)
  · intro e'
    rw [hG, group_closeContext_fire cs ⟨some k, e'⟩ k recorded rfl]

/-- Witness for C2: two closers, the signal fired, only unit 0 recorded. -/
theorem C2_witness :
    (⟨some 0, "ctxerr"⟩ : CancelCtx).fires = some 0 ∧
    (Group.CloseContext ⟨[⟨some "a"⟩, ⟨some "b"⟩]⟩ ⟨some 0, "ctxerr"⟩
        (fun i => i == 0)).dispatched = [0, 1] ∧
    (Group.CloseContext ⟨[⟨some "a"⟩, ⟨some "b"⟩]⟩ ⟨some 0, "ctxerr"⟩
        (fun i => i == 0)).errs = ["a"] ∧
    Group.CloseContext ⟨[⟨some "a"⟩, ⟨some "b"⟩]⟩ ⟨some 0, "other"⟩ (fun i => i == 0) =
      Group.CloseContext ⟨[⟨some "a"⟩, ⟨some "b"⟩]⟩ ⟨some 0, "ctxerr"⟩ (fun i => i == 0) := by
  have h := C2_group_cancel_no_ctx_error [⟨some "a"⟩, ⟨some "b"⟩] ⟨some 0, "ctxerr"⟩
    (fun i => i == 0) 0 rfl
  refine ⟨rfl, h.1.trans (by decide), by decide, h.2.2 "other"⟩

/-- C6: starting from a fresh default registry holding the default Lifo
strategy over `cs`, any sequence of package-level close calls whose first
call is uncancelled executes the underlying strategy's close exactly on the
first call — every later call returns the no-op result — and, in total
across all calls, dispatches each registered resource's close exactly
once. -/
theorem C6_default_registry_close_once (cs : List Closer) (ctx : CancelCtx)
    (rest : List CancelCtx) (hf : ctx.fires = none) :
    runCalls ⟨⟨cs⟩, false⟩ (ctx :: rest) =
      (⟨⟨cs⟩, true⟩,
        ⟨failures cs.reverse, (List.range cs.length).reverse⟩ ::
          rest.map (fun _ => ⟨[], []⟩)) ∧
    ((runCalls ⟨⟨cs⟩, false⟩ (ctx :: rest)).2.map CloseResult.dispatched).flatten =
      (List.range cs.length).reverse ∧
    ∀ i, i < cs.length →
      (((runCalls ⟨⟨cs⟩, false⟩ (ctx :: rest)).2.map CloseResult.dispatched).flatten).count i
        = 1 := by
  obtain ⟨f, e⟩ := ctx
  simp only [CancelCtx.fires] at hf
  subst hf
  have h1 : CloseContext ⟨⟨cs⟩, false⟩ ⟨none, e⟩ =
      (⟨⟨cs⟩, true⟩, ⟨failures cs.reverse, (List.range cs.length).reverse⟩) := by
    rw [CloseContext, if_neg (by simp), lifo_closeContext_none]
  have h2 := runCalls_of_fired ⟨⟨cs⟩, true⟩ rfl rest
  have hrun : runCalls ⟨⟨cs⟩, false⟩ (⟨none, e⟩ :: rest) =
      (⟨⟨cs⟩, true⟩,
        ⟨failures cs.reverse, (List.range cs.length).reverse⟩ ::
          rest.map (fun _ => ⟨[], []⟩)) := by
    simp only [runCalls, h1, h2]
  have hflat : ((runCalls ⟨⟨cs⟩, false⟩ (⟨none, e⟩ :: rest)).2.map
      CloseResult.dispatched).flatten = (List.range cs.length).reverse := by
    rw [hrun]
    simp only [List.map_cons, List.map_map, List.flatten_cons]
    rw [show (CloseResult.dispatched ∘ fun _ : CancelCtx => (⟨[], []⟩ : CloseResult)) =
      (fun _ => ([] : List Nat)) from rfl]
    rw [flatten_map_const_nil, List.append_nil]
  refine ⟨hrun, hflat, ?_⟩
  intro i hi
  rw [hflat, List.count_reverse]
  exact List.count_eq_one_of_mem (List.nodup_range _) (List.mem_range.mpr hi)

/-- Witness for C6: one failing and one succeeding resource, two calls. -/
theorem C6_witness :
    (⟨none, ""⟩ : CancelCtx).fires = none ∧
    runCalls ⟨⟨[⟨some "a"⟩, ⟨none⟩]⟩, false⟩ [⟨none, ""⟩, ⟨none, ""⟩] =
      (⟨⟨[⟨some "a"⟩, ⟨none⟩]⟩, true⟩, [⟨["a"], [1, 0]⟩, ⟨[], []⟩]) ∧
    ((runCalls ⟨⟨[⟨some "a"⟩, ⟨none⟩]⟩, false⟩ [⟨none, ""⟩, ⟨none, ""⟩]).2.map
        CloseResult.dispatched).flatten = [1, 0] ∧
    0 < 2 ∧
    (((runCalls ⟨⟨[⟨some "a"⟩, ⟨none⟩]⟩, false⟩ [⟨none, ""⟩, ⟨none, ""⟩]).2.map
        CloseResult.dispatched).flatten).count 0 = 1 := by
  have h := C6_default_registry_close_once [⟨some "a"⟩, ⟨none⟩] ⟨none, ""⟩ [⟨none, ""⟩] rfl
  exact ⟨rfl, h.1.trans (by decide), h.2.1.trans (by decide), by decide,
    h.2.2 0 (by decide)⟩

/-- C7 counterexample: with one resource failing with "boom" and two
sequential package-level close calls, the first call returns the aggregate
carrying "boom" while the second returns the nil outcome — not the same
value as the first, contradicting the claim as stated. -/
theorem C7_counterexample :
    ((runCalls ⟨⟨[⟨some "boom"⟩]⟩, false⟩ [⟨none, ""⟩, ⟨none, ""⟩]).2.map
        CloseResult.errs = [["boom"], []]) ∧
    (["boom"] : List Err) ≠ [] := by
  exact ⟨by decide, by decide⟩

/-- C7 amended: every caller after the first observes a no-op that returns
the nil (empty) outcome and dispatches nothing, regardless of the outcome
the first call produced; after any call the guard is fired. -/
theorem C7_amended_late_callers_return_nil (s : PkgState) (ctx : CancelCtx) :
    ((CloseContext s ctx).1).once = true ∧
    (s.once = true → CloseContext s ctx = (s, ⟨[], []⟩)) := by
  constructor
  · by_cases h : s.once = true <;> simp [CloseContext, h]
  · intro h
    simp [CloseContext, h]

/-- Witness for C7's amended claim: a fired registry returns nil. -/
theorem C7_amended_witness :
    (⟨⟨[⟨some "boom"⟩]⟩, true⟩ : PkgState).once = true ∧
    CloseContext ⟨⟨[⟨some "boom"⟩]⟩, true⟩ ⟨none, ""⟩ =
      (⟨⟨[⟨some "boom"⟩]⟩, true⟩, ⟨[], []⟩) := by
  exact ⟨rfl, (C7_amended_late_callers_return_nil ⟨⟨[⟨some "boom"⟩]⟩, true⟩ ⟨none, ""⟩).2 rfl⟩

/-- C8 counterexample: a context obtained from the attached context by a
second attach of a different instance is a descendant derived from it, yet
lookup returns the newer instance, not the originally attached one — the
claim's "any descendant" fails under shadowing. -/
theorem C8_counterexample :
    ClosureToContext (ClosureToContext ⟨[]⟩ ⟨0⟩) ⟨1⟩ =
      Context.derive (ClosureToContext ⟨[]⟩ ⟨0⟩)
        [(CtxKey.closureKey, CtxVal.closure ⟨1⟩)] ∧
    ClosureFromContext (ClosureToContext (ClosureToContext ⟨[]⟩ ⟨0⟩) ⟨1⟩) ≠
      (some ⟨0⟩, true) := by
  exact ⟨rfl, by decide⟩

/-- C8 amended: looking up after attaching returns exactly the attached
instance with found = true; this persists on any descendant whose derivation
adds no further association under the package's private key (a further
attach shadows the outer association, standard context-chain shadowing);
and lookup on a context with no association anywhere in its chain returns
found = false. -/
theorem C8_amended_context_roundtrip (ctx : Context) (c : Closure)
    (entries : List (CtxKey × CtxVal)) :
    ClosureFromContext (ClosureToContext ctx c) = (some c, true) ∧
    ((∀ p ∈ entries, p.1 ≠ CtxKey.closureKey) →
      ClosureFromContext (Context.derive (ClosureToContext ctx c) entries) =
        (some c, true)) ∧
    ((∀ p ∈ ctx.assoc, p.1 ≠ CtxKey.closureKey) →
      ClosureFromContext ctx = (none, false)) := by
  refine ⟨rfl, ?_, ?_⟩
  · intro hno
    have h := lookupKey_append_of_no_key CtxKey.closureKey entries
      ((CtxKey.closureKey, CtxVal.closure c) :: ctx.assoc) hno
    simp [ClosureFromContext, Context.derive, ClosureToContext, h, lookupKey]
  · intro hno
    simp [ClosureFromContext, lookupKey_none_of_no_key CtxKey.closureKey ctx.assoc hno]

/-- Witness for C8's amended claim at a concrete chain. -/
theorem C8_amended_witness :
    ClosureFromContext (ClosureToContext ⟨[(CtxKey.other 5, CtxVal.other 7)]⟩ ⟨3⟩) =
      (some ⟨3⟩, true) ∧
    (∀ p ∈ [((CtxKey.other 1 : CtxKey), CtxVal.other 2)], p.1 ≠ CtxKey.closureKey) ∧
    ClosureFromContext (Context.derive
        (ClosureToContext ⟨[(CtxKey.other 5, CtxVal.other 7)]⟩ ⟨3⟩)
        [(CtxKey.other 1, CtxVal.other 2)]) = (some ⟨3⟩, true) ∧
    ClosureFromContext ⟨[(CtxKey.other 5, CtxVal.other 7)]⟩ = (none, false) := by
  have h := C8_amended_context_roundtrip ⟨[(CtxKey.other 5, CtxVal.other 7)]⟩ ⟨3⟩
    [(CtxKey.other 1, CtxVal.other 2)]
  exact ⟨h.1, by decide, h.2.1 (by decide), h.2.2 (by decide)⟩

/-- C10: attaching never mutates the given context: the returned context is
a new one (distinct from the input), the input's whole chain survives
untouched as the tail of the derived chain, and, in particular, a context
with no association still looks up as not-found after the attach while the
derived context looks up the attached instance. -/
theorem C10_attach_does_not_mutate (ctx : Context) (c : Closure) :
    ClosureToContext ctx c ≠ ctx ∧
    ctx.assoc <:+ (ClosureToContext ctx c).assoc ∧
    ((∀ p ∈ ctx.assoc, p.1 ≠ CtxKey.closureKey) →
      ClosureFromContext ctx = (none, false) ∧
      ClosureFromContext (ClosureToContext ctx c) = (some c, true)) := by
  refine ⟨?_, ?_, ?_⟩
  · intro h
    have hlen := congrArg (fun x => x.assoc.length) h
    simp [ClosureToContext] at hlen
  · exact List.suffix_cons _ _
  · intro hno
    exact ⟨by
      simp [ClosureFromContext, lookupKey_none_of_no_key CtxKey.closureKey ctx.assoc hno],
      rfl⟩

/-- Witness for C10 on a concrete association-free context. -/
theorem C10_witness :
    ClosureToContext ⟨[(CtxKey.other 4, CtxVal.other 4)]⟩ ⟨9⟩ ≠
      ⟨[(CtxKey.other 4, CtxVal.other 4)]⟩ ∧
    (∀ p ∈ [((CtxKey.other 4 : CtxKey), CtxVal.other 4)], p.1 ≠ CtxKey.closureKey) ∧
    ClosureFromContext ⟨[(CtxKey.other 4, CtxVal.other 4)]⟩ = (none, false) ∧
    ClosureFromContext (ClosureToContext ⟨[(CtxKey.other 4, CtxVal.other 4)]⟩ ⟨9⟩) =
      (some ⟨9⟩, true) := by
  have h := C10_attach_does_not_mutate ⟨[(CtxKey.other 4, CtxVal.other 4)]⟩ ⟨9⟩
  exact ⟨h.1, by decide, (h.2.2 (by decide)).1, (h.2.2 (by decide)).2⟩

end Shutdown
